import Mathlib

/-!
Verification of the page-splitting, document-transform and flow-layout core
of the `rupert` terminal presentation tool.

The definitions below are shallow embeddings of the functions in
`src/widget.rs`, `src/transform.rs` and `src/presentation.rs`.  Machine
integers (`u16`, `usize`) are modelled as `Nat`; the one place where the
Rust code can underflow (`Section::height_table`) is modelled with an
`Option`-valued subtraction whose `none` stands for the debug-build panic.
Text styles never influence layout heights, so styled spans are modelled by
their character content only.
-/

namespace Rupert

/-- The character content of one styled span (`tui::text::Span`). -/
abbrev Run := List Char

/-- One line of text (`tui::text::Spans`): a sequence of spans. -/
abbrev Line := List Run

/-- The characters of a line, flattened across its spans; this mirrors the
`flat_map(|span| span.content.chars())` performed by `height_line`. -/
def lineChars (l : Line) : List Char := l.flatten

/-- The word-tracking state of `Section::height_line` (`enum Word` in the
source). -/
inductive Word where
| none
| started (p : Nat)
| wrappedAt (p : Nat)
deriving DecidableEq

/-- The fold state of `Section::height_line` (`struct State` in the
source). -/
structure LineState where
  height : Nat
  pos : Nat
  current : Word
deriving DecidableEq

/-- One step of the character fold inside `Section::height_line`: `i` is the
index of character `c` in the flattened character sequence. -/
def lineStep (width : Nat) (s : LineState) (i : Nat) (c : Char) : LineState :=
  let pos := s.pos + 1
  let next : Nat × Word :=
    match s.current with
    | .none => if !c.isWhitespace then (pos, Word.started i) else (pos, Word.none)
    | .started p =>
      if c.isWhitespace then (pos, Word.none)
      else if width ≤ pos then (pos, Word.wrappedAt (i - p))
      else (pos, Word.started p)
    | .wrappedAt p =>
      if c.isWhitespace then ((if 0 < pos then pos + p else pos), Word.none)
      else (pos, Word.wrappedAt p)
  if width ≤ next.1 then
    { height := s.height + 1, pos := 0, current := next.2 }
  else
    { height := s.height, pos := next.1, current := next.2 }

/-- `Section::height_line`: the wrapped height of one line, simulated over
the flattened character sequence without building the wrapped text. -/
def heightLine (width indent : Nat) (chars : List Char) : Nat :=
  (chars.enum.foldl (fun s ic => lineStep width s ic.1 ic.2)
    { height := 1, pos := indent, current := Word.none }).height

/-- A row of a table (`transform::TableRow`); cell text never influences the
computed height, but the cells are carried to keep the model faithful. -/
structure TableRow where
  header : Bool
  cells : List (List Line)
deriving DecidableEq

/-- `transform::Section`.  Each `Sections` value owned by a variant is
flattened into its inner margin (`innerMargin`, the `inner_margin` field)
followed by its list of child sections. -/
inductive Section where
| blockQuote (innerMargin : Nat) (content : List Section)
| code (text : List Line)
| heading (text : Line) (level : Nat)
| list (innerMargin : Nat) (content : List Section)
| listItemOrdered (innerMargin : Nat) (content : List Section) (ordinal : Nat)
    (delimiter : Char)
| listItemUnordered (innerMargin : Nat) (content : List Section) (bullet : Char)
| paragraph (text : List Line)
| table (rows : List TableRow)
| thematicBreak

/-- `Section::padding`: top and bottom padding, applied only towards an
existing neighbour. -/
def Section.padding : Section → Nat × Nat
| .heading _ _ => (1, 0)
| _ => (0, 0)

/-- Subtraction with the semantics of a debug-build Rust `u16` subtraction:
`none` models the underflow panic. -/
def checkedSub (a b : Nat) : Option Nat :=
  if b ≤ a then some (a - b) else none

/-- `Section::height_table`: 2 frame rows, plus 1 when a header row exists,
plus `2 × (number of non-header rows) − 1`; the subtraction is the
underflowing `u16` operation of the source. -/
def heightTable (rows : List TableRow) : Option Nat :=
  if 0 < rows.length then
    let heightHeader : Nat := if rows.any (fun r => r.header) then 1 else 0
    (checkedSub ((rows.filter (fun r => !r.header)).length * 2) 1).map
      (fun heightRows => 2 + heightHeader + heightRows)
  else
    some 0

/-- `Section::contains_non_whitespace`. -/
def containsNonWhitespace (l : Line) : Bool :=
  (lineChars l).any (fun c => !c.isWhitespace)

/-- `Section::height_paragraph`: sum of the wrapped heights of the lines,
but `0` when no line contains non-whitespace. -/
def heightParagraph (width : Nat) (text : List Line) : Nat :=
  if text.any containsNonWhitespace then
    (text.map (fun l => heightLine width 0 (lineChars l))).sum
  else 0

mutual

/-- `Section::height`, with `none` standing for the panic of the underlying
Rust computation (the `u16` underflow of `height_table`). -/
def Section.height (width : Nat) : Section → Option Nat
| .blockQuote m content => (sectionsHeight width m content).map (fun h => 1 + h)
| .code text => some text.length
| .heading text level => some (heightLine width (level + 1) (lineChars text))
| .list m content => sectionsHeight width m content
| .listItemOrdered m content _ _ => sectionsHeight width m content
| .listItemUnordered m content _ => sectionsHeight width m content
| .paragraph text => some (heightParagraph width text)
| .table rows => heightTable rows
| .thematicBreak => some 1

/-- `Sections::height` for a `Sections` value with margin `margin` and
children `content`. -/
def sectionsHeight (width margin : Nat) (content : List Section) : Option Nat :=
  sectionsHeightFrom width margin true content

/-- The sum of `Sections::height_of` over a tail of the children; `isFirst`
records whether the head of the tail is the first child. -/
def sectionsHeightFrom (width margin : Nat) (isFirst : Bool) :
    List Section → Option Nat
| [] => some 0
| s :: rest => do
  let h ← Section.height width s
  let hs ← sectionsHeightFrom width margin false rest
  some (h + (if isFirst then 0 else s.padding.1) +
    (if rest.isEmpty then 0 else s.padding.2 + margin) + hs)

end

mutual

/-- Whether no table reachable inside this section has rows that are all
header rows while being nonempty — exactly the configuration on which
`Section::height_table` underflows its `u16` subtraction. -/
def Section.tableSafe : Section → Bool
| .blockQuote _ content => tableSafeList content
| .list _ content => tableSafeList content
| .listItemOrdered _ content _ _ => tableSafeList content
| .listItemUnordered _ content _ => tableSafeList content
| .table rows => rows.isEmpty || rows.any (fun r => !r.header)
| _ => true

/-- `Section.tableSafe` for every section of a list. -/
def tableSafeList : List Section → Bool
| [] => true
| s :: rest => s.tableSafe && tableSafeList rest

end

/-- The number of data (non-header) rows of a table, as both the spec's
height formula and `height_table` count them. -/
def dataRowCount (rows : List TableRow) : Nat :=
  (rows.filter (fun r => !r.header)).length

/-- The spec's table-height formula, written with the `1` subtracted before
anything is added so that the expression is meaningful exactly when there is
at least one data row. -/
def specTableHeight (rows : List TableRow) : Nat :=
  2 + (if rows.any (fun r => r.header) then 1 else 0) + (2 * dataRowCount rows - 1)

/-- The value of a top-level AST node, as far as page breaking observes it:
front matter, thematic breaks and headings are distinguished, everything
else is an opaque tagged node. -/
inductive NodeValue where
| frontMatter
| thematicBreak
| heading (level : Nat)
| other (tag : Nat)
deriving DecidableEq

/-- `presentation::PageBreakCondition`. -/
inductive PageBreakCondition where
| thematicBreak
| heading (level : Nat)
deriving DecidableEq

/-- `PageBreakCondition::try_break`, on the node heading the sibling suffix
`node :: rest`: `some s` means a page break occurs and the next page's
iteration starts at the suffix `s`; `none` means no break.  For
`ThematicBreak` the source returns `node.next_sibling()`, so a thematic
break with no following sibling does not match. -/
def tryBreak (cond : PageBreakCondition) (node : NodeValue)
    (rest : List NodeValue) : Option (List NodeValue) :=
  match cond with
  | .thematicBreak =>
    match node with
    | .thematicBreak => if rest.isEmpty then none else some rest
    | _ => none
  | .heading level =>
    match node with
    | .heading l => if l = level then some (node :: rest) else none
    | _ => none

/-- The body of `PageIterator::next`, starting from the node heading the
given sibling suffix: returns the page's nodes together with the iterator's
next suffix, or `none` when iteration ends without producing a page (each
`?` in the source). -/
def collectPage (cond : PageBreakCondition) :
    List NodeValue → Option (List NodeValue × Option (List NodeValue))
| [] => none
| n :: rest =>
  match n with
  | .frontMatter => collectPage cond rest
  | _ =>
    match rest with
    | [] => some ([n], none)
    | m :: rest2 =>
      match tryBreak cond m rest2 with
      | some nxt => some ([n], some nxt)
      | none => (collectPage cond (m :: rest2)).map (fun pr => (n :: pr.1, pr.2))

/-- Driving loop of the page iterator, fuelled: each produced page consumes
at least one node, so a fuel of the document length suffices (proved in
`pagesGo_fuel_sufficient`). -/
def pagesGo (cond : PageBreakCondition) : Nat → List NodeValue → List (List NodeValue)
| 0, _ => []
| fuel + 1, doc =>
  match collectPage cond doc with
  | none => []
  | some (pg, none) => [pg]
  | some (pg, some nx) => pg :: pagesGo cond fuel nx

/-- `Presentation::pages`: the finite sequence of pages yielded by
`PageIterator` over the document's top-level nodes. -/
def pages (cond : PageBreakCondition) (doc : List NodeValue) : List (List NodeValue) :=
  pagesGo cond doc.length doc

/-- Whether a node survives page accumulation (front matter never does). -/
def nonFrontMatter : NodeValue → Bool
| .frontMatter => false
| _ => true

/-- Modelled from the spec: one per-level heading configuration entry — a
prefix string and an (opaque) style.  The `Configuration` fields
`heading_style1` … `heading_style6` and their types are not part of the
source snapshot (`configuration.rs` carries only title, page break and
commands); only their uses in `transform.rs` are. -/
structure HeadingStyle where
  pfx : Run
  style : Nat
deriving DecidableEq

/-- Modelled from the spec: the per-level heading configuration consulted by
the `NodeValue::Heading` arm of `transform::section`. -/
structure Configuration where
  headingStyle1 : HeadingStyle
  headingStyle2 : HeadingStyle
  headingStyle3 : HeadingStyle
  headingStyle4 : HeadingStyle
  headingStyle5 : HeadingStyle
  headingStyle6 : HeadingStyle
deriving DecidableEq

/-- The prefix selected by the `NodeValue::Heading` arm of
`transform::section`; `none` models the `panic!("unexpected level")` for
levels outside 1–6.  The source selects `heading_style1` for level 5. -/
def headingPfx (cfg : Configuration) (level : Nat) : Option Run :=
  match level with
  | 1 => some cfg.headingStyle1.pfx
  | 2 => some cfg.headingStyle2.pfx
  | 3 => some cfg.headingStyle3.pfx
  | 4 => some cfg.headingStyle4.pfx
  | 5 => some cfg.headingStyle1.pfx
  | 6 => some cfg.headingStyle6.pfx
  | _ => none

/-- The style selected by the `NodeValue::Heading` arm of
`transform::section`; `none` models the `panic!("unexpected level")` for
levels outside 1–6.  The source selects `heading_style1` for level 5. -/
def headingStyleOf (cfg : Configuration) (level : Nat) : Option Nat :=
  match level with
  | 1 => some cfg.headingStyle1.style
  | 2 => some cfg.headingStyle2.style
  | 3 => some cfg.headingStyle3.style
  | 4 => some cfg.headingStyle4.style
  | 5 => some cfg.headingStyle1.style
  | 6 => some cfg.headingStyle6.style
  | _ => none

/-- The `NodeValue::Heading` arm of `transform::section`: the configured
prefix is inserted as the first run before the inline runs of the heading
text, and the produced section keeps the node's level. -/
def transformHeading (cfg : Configuration) (level : Nat) (inlineRuns : Line) :
    Option Section :=
  (headingPfx cfg level).map (fun p => Section.heading (p :: inlineRuns) level)

/-- `transform::Footnotes`.  The stored per-footnote content (`Sections`)
never influences any index computation and is kept as a type parameter; the
`HashSet` of per-page references is modelled as a duplicate-free
insertion-ordered list (only its underlying set matters, since extraction
sorts the indices). -/
structure Footnotes (α : Type) where
  references : List String
  data : List (String × Option α)

/-- `Footnotes::default`. -/
def Footnotes.empty {α : Type} : Footnotes α := ⟨[], []⟩

/-- `HashSet::insert` on the reference-set model. -/
def insertRef (name : String) (refs : List String) : List String :=
  if name ∈ refs then refs else refs ++ [name]

/-- `self.data.iter().position(|(n, _)| name == n)`: the index of the first
entry whose name matches. -/
def keyIdx {α : Type} (data : List (String × Option α)) (name : String) :
    Option Nat :=
  match data with
  | [] => none
  | p :: rest =>
    if p.1 = name then some 0 else (keyIdx rest name).map (fun i => i + 1)

/-- `Footnotes::reference`: record the reference for the current page and
return the existing index of the name, or append a content-less entry and
return its index. -/
def Footnotes.reference {α : Type} (f : Footnotes α) (name : String) :
    Nat × Footnotes α :=
  let refs := insertRef name f.references
  match keyIdx f.data name with
  | some index => (index, { f with references := refs })
  | none =>
    (f.data.length,
     { references := refs, data := f.data ++ [(name, none)] })

/-- `Footnotes::definition`: attach content to the existing entry of the
name, or append a new entry, returning the entry's index either way. -/
def Footnotes.definition {α : Type} (f : Footnotes α) (name : String)
    (sections : α) : Nat × Footnotes α :=
  match keyIdx f.data name with
  | some index =>
    (index, { f with data := f.data.modify (fun p => (p.1, some sections)) index })
  | none =>
    (f.data.length, { f with data := f.data ++ [(name, some sections)] })

/-- `Footnotes::extract_references`: the indices of the names referenced
since the last extraction that occur in `data`, sorted ascending, together
with the state whose reference set has been cleared.  (`Vec::sort` is
modelled by insertion sort; the pre-sort order — `HashSet` iteration order
in the source — is irrelevant to the sorted result.) -/
def Footnotes.extractReferences {α : Type} (f : Footnotes α) :
    List Nat × Footnotes α :=
  let indices := f.references.filterMap (fun name => keyIdx f.data name)
  (List.insertionSort (· ≤ ·) indices, { f with references := [] })

/-- One call against the footnote table, as issued by the transform pass. -/
inductive FootnoteOp (α : Type) where
| ref (name : String)
| defn (name : String) (content : α)

/-- The footnote name a call is about. -/
def FootnoteOp.name {α : Type} : FootnoteOp α → String
| .ref n => n
| .defn n _ => n

/-- Apply one call, returning the index it returns and the new state. -/
def Footnotes.applyOp {α : Type} (f : Footnotes α) :
    FootnoteOp α → Nat × Footnotes α
| .ref n => f.reference n
| .defn n c => f.definition n c

/-- Run a sequence of calls, collecting every call's returned index. -/
def Footnotes.runTrace {α : Type} (f : Footnotes α) :
    List (FootnoteOp α) → List Nat × Footnotes α
| [] => ([], f)
| op :: rest =>
  let r := f.applyOp op
  let t := r.2.runTrace rest
  (r.1 :: t.1, t.2)

/-- The names stored in the data vector, in index order. -/
def keysOf {α : Type} (f : Footnotes α) : List String := f.data.map (fun p => p.1)

/-- A small concrete footnote table (two names referenced in reverse index
order over a three-entry data vector) used to instantiate the general
footnote theorems. -/
def sampleFootnotes : Footnotes Unit :=
  { references := ["b", "a"],
    data := [("a", none), ("b", none), ("c", none)] }

/-- `Sections::list_item_reorder`, with `k` the number of ordered items
already renumbered (the `enumerate()` counter of the source, which counts
only the sections surviving the `ListItemOrdered` filter). -/
def listItemReorderFrom (startAt k : Nat) : List Section → List Section
| [] => []
| .listItemOrdered m c _ d :: rest =>
  .listItemOrdered m c (startAt + k) d :: listItemReorderFrom startAt (k + 1) rest
| s :: rest => s :: listItemReorderFrom startAt k rest

/-- `Sections::list_item_reorder` as called by the transform. -/
def listItemReorder (startAt : Nat) (l : List Section) : List Section :=
  listItemReorderFrom startAt 0 l

/-- The `NodeValue::List` arm of `transform::section`: the transformed
children get inner margin `0` and are renumbered from the list's declared
start value. -/
def transformList (start : Nat) (children : List Section) : Section :=
  Section.list 0 (listItemReorder start children)

/-- The ordinal of an ordered list item, `none` for any other section. -/
def ordinalOf : Section → Option Nat
| .listItemOrdered _ _ o _ => some o
| _ => none

/-- The number of ordered list items in a list of sections. -/
def orderedCount (l : List Section) : Nat :=
  (l.filter (fun s => (ordinalOf s).isSome)).length

/-- The renumbering the spec describes for the `k`-th ordered item of a list
declared to start at `start`: the ordinal becomes `start + k`; sections of
any other kind are untouched. -/
def specRenumber (start k : Nat) : Section → Section
| .listItemOrdered m c _ d => .listItemOrdered m c (start + k) d
| s => s

/-! ## Theorems -/

set_option maxRecDepth 40000 in
/-- C9 counterexample: on the spec's own 28-character example string the
source's `height_line` returns 3, not the 5 the spec asserts (the
repository's unit test obtains 5 from a 45-character string). -/
theorem c9_spec_string_height_is_three :
    heightLine 10 0 "a long woooooooooooooooooord".toList = 3 ∧
    heightLine 10 0 "a long woooooooooooooooooord".toList ≠ 5 := by
  constructor
  · decide
  · decide

set_option maxRecDepth 40000 in
/-- C9 (amended): `height_line(10, 0, "one two three")` is 2; on the spec's
string `"a long woooooooooooooooooord"` it is 3; the hard-break-inside-an-
overlong-word result 5 holds for the 45-character string of the repository's
own test. -/
theorem c9_height_line_cases :
    heightLine 10 0 "one two three".toList = 2 ∧
    heightLine 10 0 "a long woooooooooooooooooord".toList = 3 ∧
    heightLine 10 0 "a long wooooooooooooooooooooooooooooooooooord".toList = 5 := by
  refine ⟨by decide, by decide, by decide⟩

/-- C5 counterexample: a table whose only row is a header row has at least
one row, but `height_table` does not return the spec's formula value — its
`u16` subtraction `2 × 0 − 1` underflows (modelled as `none`). -/
theorem c5_header_only_table_underflows :
    Section.height 7 (Section.table [⟨true, [[["Col".toList]]]⟩]) = none := by
  simp [Section.height, heightTable, dataRowCount, checkedSub]

/-- C5 (amended): for a table with at least one data row the height is
`2 + (1 if a header row exists else 0) + (2 × data_row_count − 1)`; with no
rows at all it is 0; with rows but no data rows the computation underflows
(panics) instead of returning a value. -/
theorem c5_table_height (width : Nat) (rows : List TableRow) :
    (0 < dataRowCount rows →
      Section.height width (Section.table rows) = some (specTableHeight rows)) ∧
    (rows = [] → Section.height width (Section.table rows) = some 0) ∧
    (rows ≠ [] → dataRowCount rows = 0 →
      Section.height width (Section.table rows) = none) := by
  refine ⟨?_, ?_, ?_⟩
  · intro hd
    have hrows : 0 < rows.length := by
      rcases rows with _ | ⟨r, rest⟩
      · simp [dataRowCount] at hd
      · simp
    have hsub : 1 ≤ (rows.filter (fun r => !r.header)).length * 2 := by
      have h1 : 1 ≤ dataRowCount rows := hd
      simp only [dataRowCount] at h1
      omega
    have hmul : (rows.filter (fun r => !r.header)).length * 2
        = 2 * dataRowCount rows := by
      simp [dataRowCount, Nat.mul_comm]
    simp only [Section.height, heightTable, if_pos hrows, checkedSub, if_pos hsub,
      Option.map_some', hmul, specTableHeight]
    rw [if_pos (show 1 ≤ 2 * dataRowCount rows by omega)]
    simp
  · rintro rfl
    simp [Section.height, heightTable]
  · intro hne hd
    have hrows : 0 < rows.length := List.length_pos.mpr hne
    have hz : (rows.filter (fun r => !r.header)).length * 2 = 0 := by
      simp only [dataRowCount] at hd
      omega
    simp [Section.height, heightTable, if_pos hrows, checkedSub, hz]

/-- C5 witness: a table with a header row and two data rows has height
`some (2 + 1 + (2·2 − 1))`. -/
theorem c5_table_height_witness :
    0 < dataRowCount [⟨true, []⟩, ⟨false, []⟩, ⟨false, []⟩] ∧
    Section.height 9 (Section.table [⟨true, []⟩, ⟨false, []⟩, ⟨false, []⟩]) =
      some (specTableHeight [⟨true, []⟩, ⟨false, []⟩, ⟨false, []⟩]) :=
  ⟨by decide, (c5_table_height 9 _).1 (by decide)⟩

/-- C4: evaluating the heading arm of `transform::section` at the failing
input, a level-5 heading: the source selects the level-1 configuration's
prefix and style (not the level-5 configuration), while still inserting the
selected prefix as the first run; levels outside 1–6 are rejected.  On any
configuration whose level-5 prefix differs from its level-1 prefix, the
produced section provably differs from the one the claim requires. -/
theorem c4_level5_uses_level1_configuration :
    (∀ (cfg : Configuration) (runs : Line),
      transformHeading cfg 5 runs =
        some (Section.heading (cfg.headingStyle1.pfx :: runs) 5) ∧
      headingPfx cfg 5 = headingPfx cfg 1 ∧
      headingStyleOf cfg 5 = headingStyleOf cfg 1 ∧
      headingPfx cfg 0 = none ∧ headingPfx cfg 7 = none) ∧
    headingPfx
        { headingStyle1 := ⟨"# ".toList, 1⟩, headingStyle2 := ⟨"## ".toList, 2⟩,
          headingStyle3 := ⟨"### ".toList, 3⟩, headingStyle4 := ⟨"#### ".toList, 4⟩,
          headingStyle5 := ⟨"##### ".toList, 5⟩, headingStyle6 := ⟨"###### ".toList, 6⟩ }
        5 ≠
      some
        ({ headingStyle1 := ⟨"# ".toList, 1⟩, headingStyle2 := ⟨"## ".toList, 2⟩,
           headingStyle3 := ⟨"### ".toList, 3⟩, headingStyle4 := ⟨"#### ".toList, 4⟩,
           headingStyle5 := ⟨"##### ".toList, 5⟩, headingStyle6 := ⟨"###### ".toList, 6⟩ } :
          Configuration).headingStyle5.pfx := by
  refine ⟨fun cfg runs => ⟨rfl, rfl, rfl, rfl, rfl⟩, by decide⟩

mutual

/-- A table-safe section has a defined (non-panicking) height at every
width. -/
theorem height_isSome (width : Nat) (s : Section) (h : s.tableSafe = true) :
    (Section.height width s).isSome = true := by
  cases s with
  | blockQuote m content =>
    have hc : tableSafeList content = true := by
      simpa [Section.tableSafe] using h
    have hs := sectionsHeightFrom_isSome width m true content hc
    simpa [Section.height, sectionsHeight] using hs
  | code text => simp [Section.height]
  | heading text level => simp [Section.height]
  | list m content =>
    have hc : tableSafeList content = true := by
      simpa [Section.tableSafe] using h
    have hs := sectionsHeightFrom_isSome width m true content hc
    simpa [Section.height, sectionsHeight] using hs
  | listItemOrdered m content o d =>
    have hc : tableSafeList content = true := by
      simpa [Section.tableSafe] using h
    have hs := sectionsHeightFrom_isSome width m true content hc
    simpa [Section.height, sectionsHeight] using hs
  | listItemUnordered m content b =>
    have hc : tableSafeList content = true := by
      simpa [Section.tableSafe] using h
    have hs := sectionsHeightFrom_isSome width m true content hc
    simpa [Section.height, sectionsHeight] using hs
  | paragraph text => simp [Section.height]
  | table rows =>
    simp only [Section.tableSafe, Bool.or_eq_true] at h
    rcases h with he | ha
    · have hnil : rows = [] := by simpa using he
      subst hnil
      simp [Section.height, heightTable]
    · obtain ⟨r, hr, hb⟩ := List.any_eq_true.mp ha
      have hmem : r ∈ rows.filter (fun r => !r.header) :=
        List.mem_filter.mpr ⟨hr, hb⟩
      have hlen : 0 < (rows.filter (fun r => !r.header)).length :=
        List.length_pos.mpr (List.ne_nil_of_mem hmem)
      have hrows : 0 < rows.length := List.length_pos.mpr (List.ne_nil_of_mem hr)
      have hsub : 1 ≤ (rows.filter (fun r => !r.header)).length * 2 := by omega
      simp [Section.height, heightTable, if_pos hrows, checkedSub, if_pos hsub]
  | thematicBreak => simp [Section.height]

/-- A list of table-safe sections has a defined height sum. -/
theorem sectionsHeightFrom_isSome (width margin : Nat) (isFirst : Bool)
    (l : List Section) (h : tableSafeList l = true) :
    (sectionsHeightFrom width margin isFirst l).isSome = true := by
  match l with
  | [] => simp [sectionsHeightFrom]
  | s :: rest =>
    have h1 : s.tableSafe = true := by
      have h' := h
      simp only [tableSafeList, Bool.and_eq_true] at h'
      exact h'.1
    have h2 : tableSafeList rest = true := by
      have h' := h
      simp only [tableSafeList, Bool.and_eq_true] at h'
      exact h'.2
    obtain ⟨n, hn⟩ := Option.isSome_iff_exists.mp (height_isSome width s h1)
    obtain ⟨k, hk⟩ := Option.isSome_iff_exists.mp
      (sectionsHeightFrom_isSome width margin false rest h2)
    simp [sectionsHeightFrom, hn, hk]

end

/-- C2 counterexample: the claim fails on the code in two ways.  A
constructible Section — a table whose single row is a header row — makes
`Section::height` panic (`u16` underflow, modelled as `none`); and width 0
does not produce height 0 (a thematic break has height 1 at width 0). -/
theorem c2_height_panics_on_header_only_table :
    Section.height 3 (Section.table [⟨true, []⟩]) = none ∧
    Section.height 0 Section.thematicBreak = some 1 := by
  constructor
  · simp [Section.height, heightTable, checkedSub]
  · simp [Section.height]

/-- C2 (amended): `Section::height` returns without panicking for every
constructible Section and every width, including width 0, provided the
section contains no table having rows but no data rows; in that excluded
degenerate case the `u16` subtraction of `height_table` underflows.  (Width
0 yields a defined height, not necessarily 0; rendering itself is delegated
to the external `tui` crate and is outside this model.) -/
theorem c2_height_total (width : Nat) (s : Section) (h : s.tableSafe = true) :
    (Section.height width s).isSome = true :=
  height_isSome width s h

/-- C2 witness: a block quote containing a paragraph and a table with a
header row and one data row has a defined height at width 0. -/
theorem c2_height_total_witness :
    (Section.blockQuote 1 [Section.paragraph [[" hi".toList]],
        Section.table [⟨true, []⟩, ⟨false, []⟩]]).tableSafe = true ∧
    (Section.height 0 (Section.blockQuote 1 [Section.paragraph [[" hi".toList]],
        Section.table [⟨true, []⟩, ⟨false, []⟩]])).isSome = true :=
  ⟨by simp [Section.tableSafe, tableSafeList],
   c2_height_total 0 _ (by simp [Section.tableSafe, tableSafeList])⟩

/-- Unfolding `collectPage`: a non-front-matter node with no sibling ends
the document and forms a one-node page. -/
theorem collectPage_cons_nil (cond : PageBreakCondition) (n : NodeValue)
    (h : nonFrontMatter n = true) :
    collectPage cond [n] = some ([n], none) := by
  cases n with
  | frontMatter => simp [nonFrontMatter] at h
  | thematicBreak => simp [collectPage]
  | heading l => simp [collectPage]
  | other t => simp [collectPage]

/-- Unfolding `collectPage`: when the break condition matches the next
sibling, the page closes with the current node. -/
theorem collectPage_cons_break (cond : PageBreakCondition) (n m : NodeValue)
    (rest2 nxt : List NodeValue) (h : nonFrontMatter n = true)
    (htb : tryBreak cond m rest2 = some nxt) :
    collectPage cond (n :: m :: rest2) = some ([n], some nxt) := by
  cases n with
  | frontMatter => simp [nonFrontMatter] at h
  | thematicBreak => simp [collectPage, htb]
  | heading l => simp [collectPage, htb]
  | other t => simp [collectPage, htb]

/-- Unfolding `collectPage`: when the break condition does not match the
next sibling, accumulation continues there. -/
theorem collectPage_cons_cont (cond : PageBreakCondition) (n m : NodeValue)
    (rest2 : List NodeValue) (h : nonFrontMatter n = true)
    (htb : tryBreak cond m rest2 = none) :
    collectPage cond (n :: m :: rest2) =
      (collectPage cond (m :: rest2)).map (fun pr => (n :: pr.1, pr.2)) := by
  cases n with
  | frontMatter => simp [nonFrontMatter] at h
  | thematicBreak => simp [collectPage, htb]
  | heading l => simp [collectPage, htb]
  | other t => simp [collectPage, htb]

/-- A produced page always holds at least one node. -/
theorem collectPage_fst_ne_nil (cond : PageBreakCondition) :
    ∀ (l : List NodeValue) (pg : List NodeValue) (nx : Option (List NodeValue)),
      collectPage cond l = some (pg, nx) → pg ≠ [] := by
  intro l
  induction l with
  | nil => intro pg nx h; simp [collectPage] at h
  | cons n rest ih =>
    intro pg nx h
    by_cases hfm : n = NodeValue.frontMatter
    · subst hfm
      exact ih pg nx h
    · have hn : nonFrontMatter n = true := by
        cases n <;> simp [nonFrontMatter] <;> exact hfm rfl
      match rest with
      | [] =>
        rw [collectPage_cons_nil cond n hn] at h
        simp only [Option.some.injEq, Prod.mk.injEq] at h
        simp [← h.1]
      | m :: rest2 =>
        cases htb : tryBreak cond m rest2 with
        | some nxt =>
          rw [collectPage_cons_break cond n m rest2 nxt hn htb] at h
          simp only [Option.some.injEq, Prod.mk.injEq] at h
          simp [← h.1]
        | none =>
          rw [collectPage_cons_cont cond n m rest2 hn htb] at h
          obtain ⟨pr, _, hpr⟩ := Option.map_eq_some'.mp h
          have : pg = n :: pr.1 := by
            have := congrArg Prod.fst hpr
            simpa using this.symm
          simp [this]

/-- The iterator's next suffix is strictly shorter than its input, so the
document length is enough fuel for the driving loop. -/
theorem collectPage_next_lt (cond : PageBreakCondition) :
    ∀ (l pg nx : List NodeValue),
      collectPage cond l = some (pg, some nx) → nx.length < l.length := by
  intro l
  induction l with
  | nil => intro pg nx h; simp [collectPage] at h
  | cons n rest ih =>
    intro pg nx h
    by_cases hfm : n = NodeValue.frontMatter
    · subst hfm
      have := ih pg nx h
      simpa using Nat.lt_succ_of_lt this
    · have hn : nonFrontMatter n = true := by
        cases n <;> simp [nonFrontMatter] <;> exact hfm rfl
      match rest with
      | [] =>
        rw [collectPage_cons_nil cond n hn] at h
        simp at h
      | m :: rest2 =>
        cases htb : tryBreak cond m rest2 with
        | some nxt =>
          rw [collectPage_cons_break cond n m rest2 nxt hn htb] at h
          simp only [Option.some.injEq, Prod.mk.injEq, Option.some.injEq] at h
          have hnx : nxt = nx := by
            have := h.2
            simpa using this
          subst hnx
          have hle : nxt.length ≤ rest2.length + 1 := by
            cases cond with
            | thematicBreak =>
              cases m <;> simp [tryBreak] at htb
              rw [← htb.2]
              omega
            | heading lvl =>
              cases m <;> simp [tryBreak] at htb
              rw [← htb.2]
              simp
          simp only [List.length_cons]
          omega
        | none =>
          rw [collectPage_cons_cont cond n m rest2 hn htb] at h
          obtain ⟨⟨pg', nx'⟩, hpr, heq⟩ := Option.map_eq_some'.mp h
          have hsnd : nx' = some nx := by
            have := congrArg Prod.snd heq
            simpa using this
          subst hsnd
          have := ih pg' nx hpr
          simp only [List.length_cons] at this ⊢
          omega

/-- With fuel at least the document length, `pagesGo` no longer depends on
the fuel: the fuelled loop computes the iterator's full output. -/
theorem pagesGo_fuel_sufficient (cond : PageBreakCondition) :
    ∀ (fuel fuel' : Nat) (doc : List NodeValue),
      doc.length ≤ fuel → doc.length ≤ fuel' →
      pagesGo cond fuel doc = pagesGo cond fuel' doc := by
  intro fuel
  induction fuel with
  | zero =>
    intro fuel' doc h h'
    have : doc = [] := List.length_eq_zero.mp (Nat.le_zero.mp h)
    subst this
    cases fuel' <;> simp [pagesGo, collectPage]
  | succ fuel ih =>
    intro fuel' doc h h'
    cases fuel' with
    | zero =>
      have : doc = [] := List.length_eq_zero.mp (Nat.le_zero.mp h')
      subst this
      simp [pagesGo, collectPage]
    | succ fuel' =>
      simp only [pagesGo]
      cases hcp : collectPage cond doc with
      | none => simp
      | some pr =>
        match pr, hcp with
        | (pg, none), hcp => simp
        | (pg, some nx), hcp =>
          have hlt := collectPage_next_lt cond doc pg nx hcp
          have h1 : nx.length ≤ fuel := by omega
          have h2 : nx.length ≤ fuel' := by omega
          simp [ih fuel' nx h1 h2]

/-- C10: the page iterator never yields an empty page — front matter is
skipped before accumulation and a page is emitted only after at least one
node has been pushed. -/
theorem c10_pages_nonempty (cond : PageBreakCondition) (doc : List NodeValue)
    (pg : List NodeValue) (h : pg ∈ pages cond doc) : pg ≠ [] := by
  rw [pages] at h
  generalize hfuel : doc.length = fuel at h
  clear hfuel
  induction fuel generalizing doc with
  | zero => simp [pagesGo] at h
  | succ fuel ih =>
    simp only [pagesGo] at h
    cases hcp : collectPage cond doc with
    | none => rw [hcp] at h; simp at h
    | some pr =>
      match pr, hcp with
      | (pg', none), hcp =>
        rw [hcp] at h
        simp only [List.mem_singleton] at h
        rw [h]
        exact collectPage_fst_ne_nil cond doc pg' none hcp
      | (pg', some nx), hcp =>
        rw [hcp] at h
        rcases List.mem_cons.mp h with h1 | h2
        · rw [h1]
          exact collectPage_fst_ne_nil cond doc pg' (some nx) hcp
        · exact ih nx h2

/-- C10 witness: a concrete two-page document, with front matter, whose
pages are both nonempty. -/
theorem c10_pages_nonempty_witness :
    [NodeValue.other 0] ∈
      pages PageBreakCondition.thematicBreak
        [NodeValue.frontMatter, NodeValue.other 0, NodeValue.thematicBreak,
         NodeValue.other 1] ∧
    ([NodeValue.other 0] : List NodeValue) ≠ [] :=
  ⟨by decide,
   c10_pages_nonempty PageBreakCondition.thematicBreak
     [NodeValue.frontMatter, NodeValue.other 0, NodeValue.thematicBreak,
      NodeValue.other 1]
     [NodeValue.other 0] (by decide)⟩

/-- Inversion of `tryBreak` for the thematic-break condition: a break only
happens on a thematic-break node with a following sibling, and the next page
starts at that following sibling. -/
theorem tryBreak_thematicBreak_some (m : NodeValue) (rest2 nxt : List NodeValue)
    (h : tryBreak PageBreakCondition.thematicBreak m rest2 = some nxt) :
    m = NodeValue.thematicBreak ∧ nxt = rest2 := by
  cases m with
  | thematicBreak =>
    refine ⟨rfl, ?_⟩
    simp only [tryBreak] at h
    split at h
    · simp at h
    · simp only [Option.some.injEq] at h
      exact h.symm
  | frontMatter => simp [tryBreak] at h
  | heading l => simp [tryBreak] at h
  | other t => simp [tryBreak] at h

/-- C3: under the `ThematicBreak` break condition, whenever the iterator
breaks, the input splits as a prefix, the matched thematic-break node, and
the next page's start; the produced page consists exactly of the
non-front-matter nodes of the prefix — so the matched node is excluded from
the page before it, excluded from the page after it, and the next page
begins at the sibling immediately after it. -/
theorem c3_thematic_break_excluded :
    ∀ (l pg nx : List NodeValue),
      collectPage PageBreakCondition.thematicBreak l = some (pg, some nx) →
      ∃ pre, l = pre ++ NodeValue.thematicBreak :: nx ∧
        pg = pre.filter nonFrontMatter := by
  intro l
  induction l with
  | nil => intro pg nx h; simp [collectPage] at h
  | cons n rest ih =>
    intro pg nx h
    by_cases hfm : n = NodeValue.frontMatter
    · subst hfm
      obtain ⟨pre, hl, hpg⟩ := ih pg nx h
      refine ⟨NodeValue.frontMatter :: pre, by simp [hl], ?_⟩
      simp [List.filter_cons, nonFrontMatter, hpg]
    · have hn : nonFrontMatter n = true := by
        cases n <;> simp [nonFrontMatter] <;> exact hfm rfl
      match rest with
      | [] =>
        rw [collectPage_cons_nil _ n hn] at h
        simp at h
      | m :: rest2 =>
        cases htb : tryBreak PageBreakCondition.thematicBreak m rest2 with
        | some nxt =>
          rw [collectPage_cons_break _ n m rest2 nxt hn htb] at h
          obtain ⟨hm, hnxt⟩ := tryBreak_thematicBreak_some m rest2 nxt htb
          simp only [Option.some.injEq, Prod.mk.injEq, Option.some.injEq] at h
          refine ⟨[n], ?_, ?_⟩
          · subst hm
            have hnx : nx = rest2 := by
              have h2 := h.2
              rw [← h2, hnxt]
            simp [hnx]
          · simp [List.filter_cons, hn, ← h.1]
        | none =>
          rw [collectPage_cons_cont _ n m rest2 hn htb] at h
          obtain ⟨⟨pg', nx'⟩, hpr, heq⟩ := Option.map_eq_some'.mp h
          have hsnd : nx' = some nx := by
            have := congrArg Prod.snd heq
            simpa using this
          subst hsnd
          have hfst : pg = n :: pg' := by
            have := congrArg Prod.fst heq
            simpa using this.symm
          obtain ⟨pre, hl, hpg⟩ := ih pg' nx hpr
          refine ⟨n :: pre, by simp [hl], ?_⟩
          simp [List.filter_cons, hn, hfst, hpg]

/-- The ordinals assigned from counter `k` onwards are the contiguous range
starting at `start + k`. -/
theorem listItemReorderFrom_ordinals (start : Nat) :
    ∀ (l : List Section) (k : Nat),
      (listItemReorderFrom start k l).filterMap ordinalOf =
        List.range' (start + k) (orderedCount l) := by
  intro l
  induction l with
  | nil => intro k; simp [listItemReorderFrom, orderedCount]
  | cons s rest ih =>
    intro k
    cases s with
    | listItemOrdered m c o d =>
      have hc : orderedCount (Section.listItemOrdered m c o d :: rest)
          = orderedCount rest + 1 := by
        simp [orderedCount, List.filter_cons, ordinalOf]
      rw [hc, List.range'_succ]
      simp only [listItemReorderFrom, List.filterMap_cons, ordinalOf]
      rw [ih (k + 1)]
      have : start + k + 1 = start + (k + 1) := by omega
      rw [this]
    | blockQuote m c =>
      have hc : orderedCount (Section.blockQuote m c :: rest)
          = orderedCount rest := by
        simp [orderedCount, List.filter_cons, ordinalOf]
      rw [hc]
      simp only [listItemReorderFrom, List.filterMap_cons, ordinalOf]
      exact ih k
    | code t =>
      have hc : orderedCount (Section.code t :: rest) = orderedCount rest := by
        simp [orderedCount, List.filter_cons, ordinalOf]
      rw [hc]
      simp only [listItemReorderFrom, List.filterMap_cons, ordinalOf]
      exact ih k
    | heading t lvl =>
      have hc : orderedCount (Section.heading t lvl :: rest)
          = orderedCount rest := by
        simp [orderedCount, List.filter_cons, ordinalOf]
      rw [hc]
      simp only [listItemReorderFrom, List.filterMap_cons, ordinalOf]
      exact ih k
    | list m c =>
      have hc : orderedCount (Section.list m c :: rest) = orderedCount rest := by
        simp [orderedCount, List.filter_cons, ordinalOf]
      rw [hc]
      simp only [listItemReorderFrom, List.filterMap_cons, ordinalOf]
      exact ih k
    | listItemUnordered m c b =>
      have hc : orderedCount (Section.listItemUnordered m c b :: rest)
          = orderedCount rest := by
        simp [orderedCount, List.filter_cons, ordinalOf]
      rw [hc]
      simp only [listItemReorderFrom, List.filterMap_cons, ordinalOf]
      exact ih k
    | paragraph t =>
      have hc : orderedCount (Section.paragraph t :: rest)
          = orderedCount rest := by
        simp [orderedCount, List.filter_cons, ordinalOf]
      rw [hc]
      simp only [listItemReorderFrom, List.filterMap_cons, ordinalOf]
      exact ih k
    | table rows =>
      have hc : orderedCount (Section.table rows :: rest)
          = orderedCount rest := by
        simp [orderedCount, List.filter_cons, ordinalOf]
      rw [hc]
      simp only [listItemReorderFrom, List.filterMap_cons, ordinalOf]
      exact ih k
    | thematicBreak =>
      have hc : orderedCount (Section.thematicBreak :: rest)
          = orderedCount rest := by
        simp [orderedCount, List.filter_cons, ordinalOf]
      rw [hc]
      simp only [listItemReorderFrom, List.filterMap_cons, ordinalOf]
      exact ih k

/-- Element-wise description of the renumbering pass with counter `k`. -/
theorem listItemReorderFrom_getElem? (start : Nat) :
    ∀ (l : List Section) (k i : Nat),
      (listItemReorderFrom start k l)[i]? =
        (l[i]?).map (specRenumber start (k + orderedCount (l.take i))) := by
  intro l
  induction l with
  | nil => intro k i; simp [listItemReorderFrom]
  | cons s rest ih =>
    intro k i
    cases i with
    | zero =>
      cases s <;> simp [listItemReorderFrom, specRenumber, orderedCount]
    | succ i =>
      cases s with
      | listItemOrdered m c o d =>
        simp only [listItemReorderFrom, List.getElem?_cons_succ]
        rw [ih (k + 1) i]
        have : k + 1 + orderedCount (rest.take i)
            = k + orderedCount ((Section.listItemOrdered m c o d :: rest).take (i + 1)) := by
          simp [orderedCount, List.take_succ_cons, List.filter_cons, ordinalOf]
          omega
        rw [this]
      | blockQuote m c =>
        simp only [listItemReorderFrom, List.getElem?_cons_succ]
        rw [ih k i]
        have : k + orderedCount (rest.take i)
            = k + orderedCount ((Section.blockQuote m c :: rest).take (i + 1)) := by
          simp [orderedCount, List.take_succ_cons, List.filter_cons, ordinalOf]
        rw [this]
      | code t =>
        simp only [listItemReorderFrom, List.getElem?_cons_succ]
        rw [ih k i]
        have : k + orderedCount (rest.take i)
            = k + orderedCount ((Section.code t :: rest).take (i + 1)) := by
          simp [orderedCount, List.take_succ_cons, List.filter_cons, ordinalOf]
        rw [this]
      | heading t lvl =>
        simp only [listItemReorderFrom, List.getElem?_cons_succ]
        rw [ih k i]
        have : k + orderedCount (rest.take i)
            = k + orderedCount ((Section.heading t lvl :: rest).take (i + 1)) := by
          simp [orderedCount, List.take_succ_cons, List.filter_cons, ordinalOf]
        rw [this]
      | list m c =>
        simp only [listItemReorderFrom, List.getElem?_cons_succ]
        rw [ih k i]
        have : k + orderedCount (rest.take i)
            = k + orderedCount ((Section.list m c :: rest).take (i + 1)) := by
          simp [orderedCount, List.take_succ_cons, List.filter_cons, ordinalOf]
        rw [this]
      | listItemUnordered m c b =>
        simp only [listItemReorderFrom, List.getElem?_cons_succ]
        rw [ih k i]
        have : k + orderedCount (rest.take i)
            = k + orderedCount ((Section.listItemUnordered m c b :: rest).take (i + 1)) := by
          simp [orderedCount, List.take_succ_cons, List.filter_cons, ordinalOf]
        rw [this]
      | paragraph t =>
        simp only [listItemReorderFrom, List.getElem?_cons_succ]
        rw [ih k i]
        have : k + orderedCount (rest.take i)
            = k + orderedCount ((Section.paragraph t :: rest).take (i + 1)) := by
          simp [orderedCount, List.take_succ_cons, List.filter_cons, ordinalOf]
        rw [this]
      | table rows =>
        simp only [listItemReorderFrom, List.getElem?_cons_succ]
        rw [ih k i]
        have : k + orderedCount (rest.take i)
            = k + orderedCount ((Section.table rows :: rest).take (i + 1)) := by
          simp [orderedCount, List.take_succ_cons, List.filter_cons, ordinalOf]
        rw [this]
      | thematicBreak =>
        simp only [listItemReorderFrom, List.getElem?_cons_succ]
        rw [ih k i]
        have : k + orderedCount (rest.take i)
            = k + orderedCount ((Section.thematicBreak :: rest).take (i + 1)) := by
          simp [orderedCount, List.take_succ_cons, List.filter_cons, ordinalOf]
        rw [this]

/-- C7: renumbering a list's children assigns the contiguous ordinals
`start, start+1, …` to exactly the `ListItemOrdered` children in document
order — the `i`-th child becomes its spec renumbering at the count of
ordered items strictly before it, so non-ordered siblings are unchanged —
and the `List` transform arm applies exactly this renumbering with inner
margin 0. -/
theorem c7_list_renumbering (start : Nat) (l : List Section) :
    transformList start l = Section.list 0 (listItemReorder start l) ∧
    (listItemReorder start l).filterMap ordinalOf =
      List.range' start (orderedCount l) ∧
    ∀ i, (listItemReorder start l)[i]? =
      (l[i]?).map (specRenumber start (orderedCount (l.take i))) := by
  refine ⟨rfl, ?_, ?_⟩
  · have := listItemReorderFrom_ordinals start l 0
    simpa [listItemReorder] using this
  · intro i
    have := listItemReorderFrom_getElem? start l 0 i
    simpa [listItemReorder] using this

/-- An entry's index survives appending entries at the end of the data
vector. -/
theorem keyIdx_append_of_some {α : Type} (ext : List (String × Option α)) :
    ∀ (data : List (String × Option α)) (name : String) (i : Nat),
      keyIdx data name = some i → keyIdx (data ++ ext) name = some i := by
  intro data
  induction data with
  | nil => intro name i h; simp [keyIdx] at h
  | cons p rest ih =>
    intro name i h
    rw [List.cons_append]
    simp only [keyIdx] at h ⊢
    by_cases hp : p.1 = name
    · rw [if_pos hp] at h ⊢
      exact h
    · rw [if_neg hp] at h ⊢
      obtain ⟨j, hj, hji⟩ := Option.map_eq_some'.mp h
      rw [ih name j hj]
      simp [hji]

/-- Appending a fresh name assigns it the next free index. -/
theorem keyIdx_append_fresh {α : Type} (c : Option α) :
    ∀ (data : List (String × Option α)) (name : String),
      keyIdx data name = none →
      keyIdx (data ++ [(name, c)]) name = some data.length := by
  intro data
  induction data with
  | nil => intro name _; simp [keyIdx]
  | cons p rest ih =>
    intro name h
    simp only [keyIdx] at h
    by_cases hp : p.1 = name
    · rw [if_pos hp] at h
      simp at h
    · rw [if_neg hp] at h
      have hrest : keyIdx rest name = none := by
        cases hk : keyIdx rest name with
        | none => rfl
        | some j => rw [hk] at h; simp at h
      rw [List.cons_append]
      simp only [keyIdx, if_neg hp]
      rw [ih name hrest]
      simp

/-- `List.modify` with a name-preserving function leaves every index
lookup unchanged. -/
theorem keyIdx_modify {α : Type} (c : α) :
    ∀ (data : List (String × Option α)) (j : Nat) (name : String),
      keyIdx (data.modify (fun p => (p.1, some c)) j) name =
        keyIdx data name := by
  intro data
  induction data with
  | nil => intro j name; simp [List.modify_nil]
  | cons p rest ih =>
    intro j name
    cases j with
    | zero =>
      rw [List.modify_zero_cons]
      simp only [keyIdx]
    | succ j =>
      rw [List.modify_succ_cons]
      simp only [keyIdx]
      rw [ih j name]

/-- A successful lookup points at an entry carrying exactly the searched
name. -/
theorem keyIdx_entry {α : Type} :
    ∀ (data : List (String × Option α)) (name : String) (i : Nat),
      keyIdx data name = some i → ∃ c, data[i]? = some (name, c) := by
  intro data
  induction data with
  | nil => intro name i h; simp [keyIdx] at h
  | cons p rest ih =>
    intro name i h
    simp only [keyIdx] at h
    by_cases hp : p.1 = name
    · rw [if_pos hp] at h
      simp only [Option.some.injEq] at h
      subst h
      exact ⟨p.2, by simp [← hp]⟩
    · rw [if_neg hp] at h
      obtain ⟨j, hj, hji⟩ := Option.map_eq_some'.mp h
      obtain ⟨c, hc⟩ := ih name j hj
      exact ⟨c, by simp [← hji, hc]⟩

/-- Lookup is injective: two names resolving to the same index coincide. -/
theorem keyIdx_inj {α : Type} (data : List (String × Option α))
    (n n' : String) (i : Nat) (h : keyIdx data n = some i)
    (h' : keyIdx data n' = some i) : n = n' := by
  obtain ⟨c, hc⟩ := keyIdx_entry data n i h
  obtain ⟨c', hc'⟩ := keyIdx_entry data n' i h'
  rw [hc] at hc'
  exact congrArg Prod.fst (Option.some.inj hc')

/-- After a call, the call's name resolves to the returned index. -/
theorem applyOp_self_idx {α : Type} (f : Footnotes α) (op : FootnoteOp α) :
    keyIdx ((f.applyOp op).2).data op.name = some (f.applyOp op).1 := by
  cases op with
  | ref n =>
    cases hk : keyIdx f.data n with
    | some i => simp [Footnotes.applyOp, Footnotes.reference, FootnoteOp.name, hk]
    | none =>
      simp only [Footnotes.applyOp, Footnotes.reference, FootnoteOp.name, hk]
      exact keyIdx_append_fresh none f.data n hk
  | defn n c =>
    cases hk : keyIdx f.data n with
    | some i =>
      simp only [Footnotes.applyOp, Footnotes.definition, FootnoteOp.name, hk]
      rw [keyIdx_modify c f.data i n]
      exact hk
    | none =>
      simp only [Footnotes.applyOp, Footnotes.definition, FootnoteOp.name, hk]
      exact keyIdx_append_fresh (some c) f.data n hk

/-- No call changes the index an already-resident name resolves to. -/
theorem applyOp_preserves_idx {α : Type} (f : Footnotes α) (op : FootnoteOp α)
    (name : String) (i : Nat) (h : keyIdx f.data name = some i) :
    keyIdx ((f.applyOp op).2).data name = some i := by
  cases op with
  | ref n =>
    cases hk : keyIdx f.data n with
    | some j =>
      simpa [Footnotes.applyOp, Footnotes.reference, hk] using h
    | none =>
      simp only [Footnotes.applyOp, Footnotes.reference, hk]
      exact keyIdx_append_of_some [(n, none)] f.data name i h
  | defn n c =>
    cases hk : keyIdx f.data n with
    | some j =>
      simp only [Footnotes.applyOp, Footnotes.definition, hk]
      rw [keyIdx_modify c f.data j name]
      exact h
    | none =>
      simp only [Footnotes.applyOp, Footnotes.definition, hk]
      exact keyIdx_append_of_some [(n, some c)] f.data name i h

/-- No sequence of calls changes the index of an already-resident name. -/
theorem runTrace_preserves_idx {α : Type} (ops : List (FootnoteOp α)) :
    ∀ (f : Footnotes α) (name : String) (i : Nat),
      keyIdx f.data name = some i →
      keyIdx ((f.runTrace ops).2).data name = some i := by
  induction ops with
  | nil => intro f name i h; simpa [Footnotes.runTrace] using h
  | cons op rest ih =>
    intro f name i h
    simp only [Footnotes.runTrace]
    exact ih (f.applyOp op).2 name i (applyOp_preserves_idx f op name i h)

/-- A call on a resident name returns exactly its resident index. -/
theorem applyOp_returns_resident {α : Type} (f : Footnotes α)
    (op : FootnoteOp α) (i : Nat) (h : keyIdx f.data op.name = some i) :
    (f.applyOp op).1 = i := by
  cases op with
  | ref n => simp [Footnotes.applyOp, Footnotes.reference, FootnoteOp.name] at h ⊢; simp [h]
  | defn n c => simp [Footnotes.applyOp, Footnotes.definition, FootnoteOp.name] at h ⊢; simp [h]

/-- A call on a fresh name returns the next free index. -/
theorem applyOp_returns_fresh {α : Type} (f : Footnotes α) (op : FootnoteOp α)
    (h : keyIdx f.data op.name = none) : (f.applyOp op).1 = f.data.length := by
  cases op with
  | ref n => simp [Footnotes.applyOp, Footnotes.reference, FootnoteOp.name] at h ⊢; simp [h]
  | defn n c => simp [Footnotes.applyOp, Footnotes.definition, FootnoteOp.name] at h ⊢; simp [h]

/-- C6: the first call involving a fresh footnote name is assigned the next
free index, and any later call involving the same name — after arbitrary
interleaved reference/definition calls — returns that same index. -/
theorem c6_footnote_index_stable {α : Type} (f : Footnotes α)
    (op₁ op₂ : FootnoteOp α) (ops : List (FootnoteOp α))
    (hname : op₂.name = op₁.name)
    (hfresh : keyIdx f.data op₁.name = none) :
    (f.applyOp op₁).1 = f.data.length ∧
    (((f.applyOp op₁).2.runTrace ops).2.applyOp op₂).1 = (f.applyOp op₁).1 := by
  refine ⟨applyOp_returns_fresh f op₁ hfresh, ?_⟩
  have h2 := applyOp_self_idx f op₁
  have h3 := runTrace_preserves_idx ops (f.applyOp op₁).2 op₁.name
    (f.applyOp op₁).1 h2
  have h4 : keyIdx (((f.applyOp op₁).2.runTrace ops).2).data op₂.name =
      some (f.applyOp op₁).1 := by rw [hname]; exact h3
  exact applyOp_returns_resident _ op₂ _ h4

/-- C6 witness: referencing `"a"` on an empty table yields index 0, and a
later definition of `"a"` after an interleaved reference still yields 0. -/
theorem c6_footnote_index_stable_witness :
    ((Footnotes.empty (α := Unit)).applyOp (FootnoteOp.ref "a")).1 =
      (Footnotes.empty (α := Unit)).data.length ∧
    ((((Footnotes.empty (α := Unit)).applyOp (FootnoteOp.ref "a")).2.runTrace
        [FootnoteOp.ref "b", FootnoteOp.defn "a" ()]).2.applyOp
          (FootnoteOp.defn "a" ())).1 =
      ((Footnotes.empty (α := Unit)).applyOp (FootnoteOp.ref "a")).1 :=
  c6_footnote_index_stable (Footnotes.empty (α := Unit)) (FootnoteOp.ref "a")
    (FootnoteOp.defn "a" ()) [FootnoteOp.ref "b", FootnoteOp.defn "a" ()]
    rfl rfl

/-- C8: extraction returns a sorted, duplicate-free sequence holding exactly
the indices of the names referenced since the last extraction; it clears the
reference set, so an immediate second call returns the empty sequence; and
its result depends only on the set of referenced names, not on the order
they were referenced in. -/
theorem c8_extract_references_sorted {α : Type} (f : Footnotes α)
    (hnd : f.references.Nodup) :
    List.Sorted (· ≤ ·) (f.extractReferences).1 ∧
    (f.extractReferences).1.Nodup ∧
    (∀ i, i ∈ (f.extractReferences).1 ↔
      ∃ name ∈ f.references, keyIdx f.data name = some i) ∧
    (f.extractReferences).2.references = [] ∧
    ((f.extractReferences).2.extractReferences).1 = [] ∧
    (∀ g : Footnotes α, g.data = f.data → g.references.Perm f.references →
      (g.extractReferences).1 = (f.extractReferences).1) := by
  refine ⟨?_, ?_, ?_, rfl, rfl, ?_⟩
  · exact List.sorted_insertionSort (· ≤ ·) _
  · have hperm := List.perm_insertionSort (· ≤ ·)
      (f.references.filterMap (fun name => keyIdx f.data name))
    refine hperm.nodup_iff.mpr ?_
    refine List.Nodup.filterMap ?_ hnd
    intro a a' b hb hb'
    exact keyIdx_inj f.data a a' b hb hb'
  · intro i
    simp only [Footnotes.extractReferences, List.mem_insertionSort,
      List.mem_filterMap]
  · intro g hdata hperm
    have hpi : (g.references.filterMap (fun name => keyIdx g.data name)).Perm
        (f.references.filterMap (fun name => keyIdx f.data name)) := by
      rw [hdata]
      exact hperm.filterMap _
    refine List.eq_of_perm_of_sorted ?_
      (List.sorted_insertionSort (· ≤ ·) _) (List.sorted_insertionSort (· ≤ ·) _)
    exact ((List.perm_insertionSort (· ≤ ·) _).trans hpi).trans
      (List.perm_insertionSort (· ≤ ·) _).symm

/-- C8 witness: with `"b"` and `"a"` referenced in that order over a
three-entry data vector, extraction returns `[0, 1]` sorted, membership
matches the reference set, and the cleared state extracts nothing. -/
theorem c8_extract_references_sorted_witness :
    List.Sorted (· ≤ ·) (sampleFootnotes.extractReferences).1 ∧
    (0 ∈ (sampleFootnotes.extractReferences).1 ↔
      ∃ name ∈ sampleFootnotes.references,
        keyIdx sampleFootnotes.data name = some 0) ∧
    ((sampleFootnotes.extractReferences).2.extractReferences).1 = [] :=
  ⟨(c8_extract_references_sorted sampleFootnotes (by decide)).1,
   (c8_extract_references_sorted sampleFootnotes (by decide)).2.2.1 0,
   (c8_extract_references_sorted sampleFootnotes (by decide)).2.2.2.2.1⟩

/-- C3 witness: on a concrete document the matched thematic break is dropped
from both pages and the next page starts right after it. -/
theorem c3_thematic_break_excluded_witness :
    ∃ pre,
      ([NodeValue.other 0, NodeValue.thematicBreak, NodeValue.other 1] :
          List NodeValue) = pre ++ NodeValue.thematicBreak :: [NodeValue.other 1] ∧
      [NodeValue.other 0] = pre.filter nonFrontMatter :=
  c3_thematic_break_excluded
    [NodeValue.other 0, NodeValue.thematicBreak, NodeValue.other 1]
    [NodeValue.other 0] [NodeValue.other 1] (by decide)

end Rupert
